import Mathlib

/-!
Verification of the recipe availability analyzer of `src/analyze-recipes.js`
(repository `cmbm-admin-tools`).

Modelling conventions:
* JS strings are modelled as lists of natural numbers (their UTF-16 code
  units); only the ASCII range is exercised by the analyzer.
* A possibly-absent (`undefined`/`null`) `name` field is an `Option`;
  the optional-chaining expression `x?.toLowerCase().trim()` becomes
  `Option.map normName`, and the `===` comparison of the two (possibly
  `undefined`) results becomes decidable equality of the two options.
* `Math.round(((t - m) / t) * 100)` is evaluated in IEEE-754 binary64
  arithmetic: the integer operands and their difference are exact
  doubles (JS array lengths are below 2^53), the division and the
  multiplication each round to the nearest double — modelled exactly
  over `ℚ` by `fl64` (round to nearest, ties to even) — and
  `Math.round` itself is exact round-half-up per ECMA-262.
* `Array.prototype.sort` is stable (required by the JS standard); the
  sort in `generateReport` is therefore modelled by the stable
  `List.mergeSort` over the same comparator.
-/

namespace AnalyzeRecipes

/-- Character-level model of `String.prototype.toLowerCase` on a single
UTF-16 code unit (ASCII letters `A`–`Z` map to `a`–`z`, everything else
is unchanged). -/
def lowerCode (n : Nat) : Nat :=
  if 65 ≤ n ∧ n ≤ 90 then n + 32 else n

/-- Whitespace test used by `String.prototype.trim` (tab, LF, VT, FF,
CR, space — the code units the analyzer can encounter). -/
def isWsCode (n : Nat) : Bool :=
  decide (n = 9 ∨ n = 10 ∨ n = 11 ∨ n = 12 ∨ n = 13 ∨ n = 32)

/-- `String.prototype.toLowerCase`, code-unit-wise. -/
def jsToLower (s : List Nat) : List Nat := s.map lowerCode

/-- `String.prototype.trim`: drop whitespace from both ends. -/
def jsTrim (s : List Nat) : List Nat :=
  ((s.dropWhile isWsCode).reverse.dropWhile isWsCode).reverse

/-- The normalization `name.toLowerCase().trim()` performed inside the
`inventory.find` callback of `analyzeRecipeAvailability`. -/
def normName (s : List Nat) : List Nat := jsTrim (jsToLower s)

/-- The optional-chained normalization `name?.toLowerCase().trim()`:
an absent name stays absent (`undefined` in the source). -/
def normOpt (s : Option (List Nat)) : Option (List Nat) := s.map normName

/-- The comparison `item.name?.toLowerCase().trim() ===
ingredient.name?.toLowerCase().trim()` from `analyzeRecipeAvailability`
(line 96 of `analyze-recipes.js`). -/
def namesMatch (a b : Option (List Nat)) : Bool :=
  decide (normOpt a = normOpt b)

/-! ### IEEE-754 binary64 arithmetic, modelled exactly over `ℚ`

The percentage in the source is computed on JS numbers (binary64
doubles). Every representable double is a rational, and each basic
operation rounds its exact rational result to the nearest double (ties
to even), so double arithmetic is modelled exactly by composing exact
rational operations with the rounding function `fl64`. Overflow and
subnormals are irrelevant here: the analyzer only rounds quotients of
positive integers below `2^53` and their hundredfolds. -/

/-- Round a rational to the nearest integer, ties to even — the
rounding IEEE-754 applies to the scaled significand of every result. -/
def roundHalfEven (r : ℚ) : ℤ :=
  if Int.fract r < 1 / 2 then ⌊r⌋
  else if 1 / 2 < Int.fract r then ⌊r⌋ + 1
  else if ⌊r⌋ % 2 = 0 then ⌊r⌋ else ⌊r⌋ + 1

/-- The significand of a positive rational is `q ⬝ 2 ^ (52 - e)` with
`e = ⌊log₂ q⌋`; rounding it to the nearest integer and scaling back
yields the nearest binary64 value. -/
def fl64Pos (q : ℚ) : ℚ :=
  (roundHalfEven (q * 2 ^ (52 - Int.log 2 q)) : ℚ) * 2 ^ (Int.log 2 q - 52)

/-- Round a rational to the nearest IEEE-754 binary64 value (round to
nearest, ties to even; odd-symmetric for negative arguments, which the
analyzer never produces). -/
def fl64 (q : ℚ) : ℚ :=
  if q < 0 then -fl64Pos (-q)
  else if q = 0 then 0
  else fl64Pos q

/-- `Math.round` (ECMA-262): the integral value closest to the
argument, ties toward `+∞` — mathematically `⌊x + 1/2⌋`, computed on
the exact value of the argument, not with a double addition. Restricted
to the nonnegative arguments the analyzer produces. -/
def jsRound (r : ℚ) : ℕ := ⌊r + 1/2⌋₊

/-- `Math.round(((totalIngredients - missingCount) / totalIngredients) * 100)`
(line 110 of `analyze-recipes.js`) as binary64 arithmetic: the operands
are JS array lengths (integers below `2^53`), so they and their
difference are exact doubles; the division and the multiplication by
100 each round to the nearest double; `Math.round` is exact. -/
def jsPct (total missing : ℕ) : ℕ :=
  jsRound (fl64 (fl64 (((total : ℚ) - (missing : ℚ)) / (total : ℚ)) * 100))

/-- One stocked inventory item (see the mock data shape in
`analyze-recipes.js`). Only `name` is read by the analyzer; the other
fields are carried along unchanged. -/
structure InventoryItem where
  _id : List Nat
  name : Option (List Nat)
  volumeRemaining : Int
  volumeTotal : Int
  unit : List Nat
deriving DecidableEq

/-- One line of a recipe's ingredient list. -/
structure Ingredient where
  name : Option (List Nat)
  measure : List Nat
deriving DecidableEq

/-- A recipe: metadata plus an ordered ingredient list. -/
structure Recipe where
  _id : List Nat
  name : List Nat
  category : List Nat
  thumbnailUrl : List Nat
  ingredients : List Ingredient
deriving DecidableEq

/-- The three availability states. The source uses the string constants
`'full' | 'partial' | 'none'`; `partial` is a Lean keyword, so the
middle constructor is named `part`. -/
inductive Availability where
  | full
  | part
  | none
deriving DecidableEq

/-- The per-recipe availability report built by
`analyzeRecipeAvailability`. The two ingredient-name lists hold the raw
(possibly absent) `ingredient.name` values, exactly as pushed by the
source. -/
structure AvailabilityReport where
  recipe : Recipe
  availability : Availability
  missingIngredients : List (Option (List Nat))
  availableIngredients : List (Option (List Nat))
  missingCount : Nat
  totalIngredients : Nat
  percentageAvailable : Nat
deriving DecidableEq

/-- `inventory.find((item) => item.name?... === ingredient.name?...)`
tested for truthiness: the found object is always truthy, so the `if
(inventoryItem)` branch is taken exactly when `find` succeeds. -/
def ingredientAvailable (inventory : List InventoryItem) (ing : Ingredient) : Bool :=
  (inventory.find? (fun item => namesMatch item.name ing.name)).isSome

/-- The body of the `recipes.map` callback in `analyzeRecipeAvailability`
(lines 90–131): the `forEach` pushing each ingredient name onto
`availableIngredients` or `missingIngredients` is the order-preserving
partition of the ingredient list by `ingredientAvailable`; the counters,
the rounded percentage and the availability classification follow the
source line by line. -/
def analyzeOne (inventory : List InventoryItem) (recipe : Recipe) : AvailabilityReport :=
  let split := recipe.ingredients.partition (fun ing => ingredientAvailable inventory ing)
  let availableIngredients := split.1.map Ingredient.name
  let missingIngredients := split.2.map Ingredient.name
  let totalIngredients := recipe.ingredients.length
  let missingCount := missingIngredients.length
  let percentageAvailable :=
    if 0 < totalIngredients then jsPct totalIngredients missingCount else 0
  let availability :=
    if missingCount = 0 then Availability.full
    else if missingCount < totalIngredients then Availability.part
    else Availability.none
  { recipe := recipe
    availability := availability
    missingIngredients := missingIngredients
    availableIngredients := availableIngredients
    missingCount := missingCount
    totalIngredients := totalIngredients
    percentageAvailable := percentageAvailable }

/-- `analyzeRecipeAvailability(recipes, inventory)`: one report per
recipe, in input order. -/
def analyzeRecipeAvailability (recipes : List Recipe) (inventory : List InventoryItem) :
    List AvailabilityReport :=
  recipes.map (analyzeOne inventory)

/-- The aggregate counts computed in `generateReport` (lines 147–149):
three filters of the analysis by availability. -/
structure AnalysisSummary where
  fullyMakeable : Nat
  partiallyMakeable : Nat
  notMakeable : Nat
deriving DecidableEq

/-- `summarize` (spec §4.3): the three `analysis.filter(...).length`
counts of `generateReport`. -/
def summarize (reports : List AvailabilityReport) : AnalysisSummary :=
  { fullyMakeable := (reports.filter (fun a => decide (a.availability = Availability.full))).length
    partiallyMakeable := (reports.filter (fun a => decide (a.availability = Availability.part))).length
    notMakeable := (reports.filter (fun a => decide (a.availability = Availability.none))).length }

/-- The `availabilityOrder` table `{ full: 3, partial: 2, none: 1 }` of
the sort comparator in `generateReport` (line 185). -/
def availabilityOrder : Availability → Nat
  | Availability.full => 3
  | Availability.part => 2
  | Availability.none => 1

/-- `rankBefore a b` holds when the comparator of `generateReport`
(lines 184–194) returns a non-positive value on `(a, b)`, i.e. a stable
sort may keep `a` (weakly) before `b`: higher availability rank first,
then higher percentage, ties kept in input order. -/
def rankBefore (a b : AvailabilityReport) : Bool :=
  decide (availabilityOrder b.availability < availabilityOrder a.availability) ||
    (decide (availabilityOrder a.availability = availabilityOrder b.availability) &&
      decide (b.percentageAvailable ≤ a.percentageAvailable))

/-- `rank` (spec §4.4): the `[...analysis].sort(...)` of
`generateReport`. `Array.prototype.sort` is stable per the JS standard,
so the sort is modelled by the stable `List.mergeSort` over the same
comparator. -/
def rank (reports : List AvailabilityReport) : List AvailabilityReport :=
  reports.mergeSort rankBefore

/-! ### Basic unfolding lemmas for `analyzeOne` -/

theorem analyzeOne_recipe (inventory : List InventoryItem) (recipe : Recipe) :
    (analyzeOne inventory recipe).recipe = recipe := rfl

theorem analyzeOne_availableIngredients (inventory : List InventoryItem) (recipe : Recipe) :
    (analyzeOne inventory recipe).availableIngredients =
      (recipe.ingredients.filter (fun ing => ingredientAvailable inventory ing)).map
        Ingredient.name := by
  simp [analyzeOne, List.partition_eq_filter_filter]

theorem analyzeOne_missingIngredients (inventory : List InventoryItem) (recipe : Recipe) :
    (analyzeOne inventory recipe).missingIngredients =
      (recipe.ingredients.filter (fun ing => !ingredientAvailable inventory ing)).map
        Ingredient.name := by
  simp [analyzeOne, List.partition_eq_filter_filter, Function.comp_def]

theorem analyzeOne_totalIngredients (inventory : List InventoryItem) (recipe : Recipe) :
    (analyzeOne inventory recipe).totalIngredients = recipe.ingredients.length := rfl

theorem analyzeOne_missingCount (inventory : List InventoryItem) (recipe : Recipe) :
    (analyzeOne inventory recipe).missingCount =
      (recipe.ingredients.filter (fun ing => !ingredientAvailable inventory ing)).length := by
  simp [analyzeOne, List.partition_eq_filter_filter, Function.comp_def]

theorem analyzeOne_availability (inventory : List InventoryItem) (recipe : Recipe) :
    (analyzeOne inventory recipe).availability =
      (if (analyzeOne inventory recipe).missingCount = 0 then Availability.full
       else if (analyzeOne inventory recipe).missingCount < recipe.ingredients.length then
         Availability.part
       else Availability.none) := by
  simp only [analyzeOne, List.partition_eq_filter_filter]

theorem analyzeOne_percentageAvailable (inventory : List InventoryItem) (recipe : Recipe) :
    (analyzeOne inventory recipe).percentageAvailable =
      (if 0 < recipe.ingredients.length then
        jsPct recipe.ingredients.length (analyzeOne inventory recipe).missingCount
       else 0) := by
  simp only [analyzeOne, List.partition_eq_filter_filter]

theorem missingCount_le_total (inventory : List InventoryItem) (recipe : Recipe) :
    (analyzeOne inventory recipe).missingCount ≤ (analyzeOne inventory recipe).totalIngredients := by
  rw [analyzeOne_missingCount, analyzeOne_totalIngredients]
  exact List.length_filter_le _ _

/-! ### C1: availability classification -/

/-- A recipe with an empty ingredient list, as in Scenario D of the spec. -/
def emptyRecipe : Recipe :=
  { _id := [], name := [], category := [], thumbnailUrl := [], ingredients := [] }

/-- C1 (counterexample): the claim says a recipe with zero ingredients is
classified `'none'`, not `'full'`; the code's `missingCount === 0` branch
fires first, so the report of the zero-ingredient recipe has
`availability = 'full'` even though `missingCount == totalIngredients == 0`. -/
theorem availability_empty_recipe_full :
    (analyzeOne [] emptyRecipe).availability = Availability.full ∧
      (analyzeOne [] emptyRecipe).totalIngredients = 0 ∧
      (analyzeOne [] emptyRecipe).missingCount = (analyzeOne [] emptyRecipe).totalIngredients := by
  decide

/-- C1 (amended): for every recipe and inventory, the report has
`availability = 'full'` iff `missingCount = 0` (in particular the
zero-ingredient recipe is classified `'full'`), `availability = 'none'`
iff `missingCount = totalIngredients > 0`, and `availability = 'partial'`
iff `0 < missingCount < totalIngredients`. -/
theorem availability_classification (inventory : List InventoryItem) (recipe : Recipe) :
    ((analyzeOne inventory recipe).availability = Availability.full ↔
        (analyzeOne inventory recipe).missingCount = 0) ∧
      ((analyzeOne inventory recipe).availability = Availability.none ↔
        ((analyzeOne inventory recipe).missingCount = (analyzeOne inventory recipe).totalIngredients ∧
          0 < (analyzeOne inventory recipe).totalIngredients)) ∧
      ((analyzeOne inventory recipe).availability = Availability.part ↔
        (0 < (analyzeOne inventory recipe).missingCount ∧
          (analyzeOne inventory recipe).missingCount <
            (analyzeOne inventory recipe).totalIngredients)) := by
  have hle := missingCount_le_total inventory recipe
  rw [analyzeOne_totalIngredients] at hle
  rw [analyzeOne_availability, analyzeOne_totalIngredients]
  by_cases h0 : (analyzeOne inventory recipe).missingCount = 0
  · rw [if_pos h0]
    refine ⟨by simp [h0], ?_, ?_⟩
    · constructor
      · intro h; simp at h
      · intro h; exfalso; omega
    · constructor
      · intro h; simp at h
      · intro h; exfalso; omega
  · rw [if_neg h0]
    by_cases h1 : (analyzeOne inventory recipe).missingCount < recipe.ingredients.length
    · rw [if_pos h1]
      refine ⟨?_, ?_, ?_⟩
      · constructor
        · intro h; simp at h
        · intro h; exfalso; omega
      · constructor
        · intro h; simp at h
        · intro h; exfalso; omega
      · constructor
        · intro _; omega
        · intro _; rfl
    · rw [if_neg h1]
      refine ⟨?_, ?_, ?_⟩
      · constructor
        · intro h; simp at h
        · intro h; exfalso; omega
      · constructor
        · intro _; omega
        · intro _; rfl
      · constructor
        · intro h; simp at h
        · intro h; exfalso; omega

/-! ### C2: the two ingredient lists partition the recipe's names -/

/-- C2: `missingIngredients` and `availableIngredients` partition the
recipe's ingredient names: the counts add up to `totalIngredients`, each
list is an order-preserving subsequence of the recipe's name sequence,
and their concatenation is a permutation of it (so every ingredient
name occurrence lands in exactly one of the two lists). -/
theorem report_lists_partition (inventory : List InventoryItem) (recipe : Recipe) :
    ((analyzeOne inventory recipe).missingCount +
        (analyzeOne inventory recipe).availableIngredients.length =
        (analyzeOne inventory recipe).totalIngredients) ∧
      List.Sublist (analyzeOne inventory recipe).availableIngredients
        (recipe.ingredients.map Ingredient.name) ∧
      List.Sublist (analyzeOne inventory recipe).missingIngredients
        (recipe.ingredients.map Ingredient.name) ∧
      ((analyzeOne inventory recipe).availableIngredients ++
          (analyzeOne inventory recipe).missingIngredients).Perm
        (recipe.ingredients.map Ingredient.name) := by
  rw [analyzeOne_missingCount, analyzeOne_availableIngredients, analyzeOne_missingIngredients,
    analyzeOne_totalIngredients]
  refine ⟨?_, ?_, ?_, ?_⟩
  · have := (List.filter_append_perm
      (fun ing => ingredientAvailable inventory ing) recipe.ingredients).length_eq
    simp only [List.length_append] at this
    simp only [List.length_map]
    omega
  · exact (List.filter_sublist _).map Ingredient.name
  · exact (List.filter_sublist _).map Ingredient.name
  · have := (List.filter_append_perm
      (fun ing => ingredientAvailable inventory ing) recipe.ingredients).map Ingredient.name
    simpa [List.map_append] using this

/-! ### C7: summarize counts add up -/

/-- C7: the three aggregate counts of `summarize` partition the report
list: `fullyMakeable + partiallyMakeable + notMakeable` equals the
number of reports (and, the model being purely functional, `summarize`
has no effect on its input). -/
theorem summarize_counts_total (reports : List AvailabilityReport) :
    (summarize reports).fullyMakeable + (summarize reports).partiallyMakeable +
        (summarize reports).notMakeable = reports.length := by
  induction reports with
  | nil => rfl
  | cons r rest ih =>
    simp only [summarize, List.filter_cons, List.length_cons] at ih ⊢
    cases r.availability <;> simp <;> omega

/-! ### C4: the name matcher -/

theorem isWsCode_lowerCode (n : Nat) : isWsCode (lowerCode n) = isWsCode n := by
  unfold lowerCode isWsCode
  split
  · rename_i h
    exact decide_eq_decide.mpr (by omega)
  · rfl

/-- Lower-casing first and trimming second (as the source does) agrees
with trimming first and lower-casing second (as the spec phrases it),
because lower-casing never creates or destroys whitespace. -/
theorem jsTrim_jsToLower (s : List Nat) : jsTrim (jsToLower s) = jsToLower (jsTrim s) := by
  have hfun : (isWsCode ∘ lowerCode) = isWsCode := funext isWsCode_lowerCode
  unfold jsTrim jsToLower
  rw [List.dropWhile_map, hfun, ← List.map_reverse, List.dropWhile_map, hfun, ← List.map_reverse]

/-- Code units of the inventory-item name `" Lime Juice "`. -/
def limeJuiceItemName : List Nat := [32, 76, 105, 109, 101, 32, 74, 117, 105, 99, 101, 32]

/-- Code units of the requirement name `"lime juice"`. -/
def limeJuiceReqName : List Nat := [108, 105, 109, 101, 32, 106, 117, 105, 99, 101]

/-- C4: the matcher declares two present names equal exactly when they
are identical after trimming leading/trailing whitespace and
lower-casing (and in no other case); consequently an item named
`" Lime Juice "` matches a requirement named `"lime juice"`. -/
theorem name_matcher_spec :
    (∀ s t : List Nat,
        (namesMatch (Option.some s) (Option.some t) = true ↔
          jsToLower (jsTrim s) = jsToLower (jsTrim t))) ∧
      namesMatch (Option.some limeJuiceItemName) (Option.some limeJuiceReqName) = true := by
  constructor
  · intro s t
    rw [namesMatch, decide_eq_true_iff]
    simp only [normOpt, normName, Option.map_some', Option.some.injEq]
    rw [jsTrim_jsToLower, jsTrim_jsToLower]
  · decide

/-! ### C5: absent names -/

/-- An inventory item whose `name` field is absent (`undefined`). -/
def itemNoName : InventoryItem :=
  { _id := [], name := Option.none, volumeRemaining := 0, volumeTotal := 0, unit := [] }

/-- A recipe whose single ingredient has an absent `name` field. -/
def recipeNoNameIngredient : Recipe :=
  { _id := [], name := [], category := [], thumbnailUrl := [],
    ingredients := [{ name := Option.none, measure := [] }] }

/-- C5 (counterexample): the claim says an absent name never matches
anything, including another absent name, so the ingredient would always
be missing; but `undefined === undefined` holds in the source, so an
ingredient with an absent name matches an inventory item with an absent
name and is reported available, not missing. -/
theorem absent_names_match_each_other :
    namesMatch Option.none Option.none = true ∧
      (analyzeOne [itemNoName] recipeNoNameIngredient).availableIngredients = [Option.none] ∧
      (analyzeOne [itemNoName] recipeNoNameIngredient).missingIngredients = [] := by
  decide

/-- C5 (amended): the analysis is total (the model never raises by
construction), an absent name never matches any present name in either
direction, but an absent ingredient name does match an absent inventory
item name: the ingredient is reported available exactly when some
inventory item has an absent name. -/
theorem absent_name_matching (inventory : List InventoryItem) (s m : List Nat) :
    namesMatch Option.none (Option.some s) = false ∧
      namesMatch (Option.some s) Option.none = false ∧
      (ingredientAvailable inventory { name := Option.none, measure := m } = true ↔
        ∃ item ∈ inventory, item.name = Option.none) := by
  refine ⟨by simp [namesMatch, normOpt], by simp [namesMatch, normOpt], ?_⟩
  simp [ingredientAvailable, namesMatch, normOpt, Option.map_eq_none']

/-! ### C8: one report per recipe, in order -/

/-- C8: `analyzeRecipeAvailability` produces exactly one report per
input recipe, in the same order as the input sequence, and each report's
`recipe` field is the corresponding source recipe: the lengths agree and
mapping each report to its `recipe` field recovers the input list. -/
theorem analyze_one_report_per_recipe (recipes : List Recipe) (inventory : List InventoryItem) :
    (analyzeRecipeAvailability recipes inventory).length = recipes.length ∧
      (analyzeRecipeAvailability recipes inventory).map AvailabilityReport.recipe = recipes := by
  constructor
  · simp [analyzeRecipeAvailability]
  · simp only [analyzeRecipeAvailability, List.map_map]
    have : (AvailabilityReport.recipe ∘ analyzeOne inventory) = fun r => r := by
      funext r
      rfl
    rw [this, List.map_id']

/-! ### Facts about `fl64` and `jsPct` -/

theorem roundHalfEven_err (r : ℚ) : |(roundHalfEven r : ℚ) - r| ≤ 1 / 2 := by
  have h0 := Int.fract_nonneg r
  have h1 := Int.fract_lt_one r
  have h2 := Int.floor_add_fract r
  unfold roundHalfEven
  split
  · rename_i h
    rw [abs_le]
    constructor <;> linarith
  · rename_i h
    split
    · rename_i h'
      rw [abs_le]
      push_cast
      constructor <;> linarith
    · rename_i h'
      have he : Int.fract r = 1/2 := le_antisymm (not_lt.mp h') (not_lt.mp h)
      split <;> (rw [abs_le]; push_cast; constructor <;> linarith)

theorem roundHalfEven_intCast (n : ℤ) : roundHalfEven (n : ℚ) = n := by
  rw [roundHalfEven, if_pos]
  · exact Int.floor_intCast n
  · rw [Int.fract_intCast]
    norm_num

theorem roundHalfEven_eq_of_lt {r : ℚ} {n : ℤ} (h1 : (n:ℚ) ≤ r) (h2 : r < (n:ℚ) + 1/2) :
    roundHalfEven r = n := by
  have hf : ⌊r⌋ = n := Int.floor_eq_iff.mpr ⟨h1, by linarith⟩
  have hfr : Int.fract r < 1/2 := by
    have h3 := Int.floor_add_fract r
    rw [hf] at h3
    linarith
  rw [roundHalfEven, if_pos hfr, hf]

theorem roundHalfEven_eq_of_gt {r : ℚ} {n : ℤ} (h1 : (n:ℚ) + 1/2 < r) (h2 : r ≤ (n:ℚ) + 1) :
    roundHalfEven r = n + 1 := by
  rcases lt_or_eq_of_le h2 with hlt | he
  · have hf : ⌊r⌋ = n := Int.floor_eq_iff.mpr ⟨by linarith, by linarith⟩
    have hfr : 1/2 < Int.fract r := by
      have h3 := Int.floor_add_fract r
      rw [hf] at h3
      linarith
    rw [roundHalfEven, if_neg (by linarith), if_pos hfr, hf]
  · have hcast : r = ((n + 1 : ℤ) : ℚ) := by push_cast; linarith
    rw [hcast, roundHalfEven_intCast]

theorem fl64_zero : fl64 0 = 0 := by norm_num [fl64]

/-- The chosen exponent is determined by any bracketing of `q` between
consecutive powers of two. -/
theorem intLog2_eq {q : ℚ} {e : ℤ} (hq : 0 < q) (h1 : (2:ℚ)^e ≤ q) (h2 : q < (2:ℚ)^(e+1)) :
    Int.log 2 q = e := by
  have A : ((2:ℕ):ℚ) ^ (Int.log 2 q) ≤ q := Int.zpow_log_le_self (by norm_num) hq
  have B : q < ((2:ℕ):ℚ) ^ (Int.log 2 q + 1) := Int.lt_zpow_succ_log_self (by norm_num) q
  push_cast at A B
  have h3 : (2:ℚ) ^ (Int.log 2 q) < (2:ℚ) ^ (e+1) := lt_of_le_of_lt A h2
  have h4 : (2:ℚ) ^ e < (2:ℚ) ^ (Int.log 2 q + 1) := lt_of_le_of_lt h1 B
  rw [zpow_lt_zpow_iff_right₀ (by norm_num : (1:ℚ) < 2)] at h3 h4
  omega

/-- Rounding to the nearest double keeps the value within half an ulp:
a relative error of at most `2^-53`. -/
theorem fl64_err (q : ℚ) (hq : 0 < q) : |fl64 q - q| ≤ q / 9007199254740992 := by
  rw [fl64, if_neg (by linarith), if_neg hq.ne']
  unfold fl64Pos
  have h2 : (0:ℚ) < 2 := by norm_num
  have hle : (2:ℚ) ^ (Int.log 2 q) ≤ q := by
    have := Int.zpow_log_le_self (b := 2) (r := q) (by norm_num) hq
    push_cast at this
    exact this
  have hs2 : (0:ℚ) < (2:ℚ) ^ (Int.log 2 q - 52) := zpow_pos h2 _
  have hcancel : (2:ℚ) ^ ((52:ℤ) - Int.log 2 q) * (2:ℚ) ^ (Int.log 2 q - 52) = 1 := by
    rw [← zpow_add₀ (by norm_num : (2:ℚ) ≠ 0)]
    norm_num
  have hkey := roundHalfEven_err (q * 2 ^ ((52:ℤ) - Int.log 2 q))
  have hrew : (roundHalfEven (q * 2 ^ ((52:ℤ) - Int.log 2 q)) : ℚ) * 2 ^ (Int.log 2 q - 52) - q =
      ((roundHalfEven (q * 2 ^ ((52:ℤ) - Int.log 2 q)) : ℚ) - q * 2 ^ ((52:ℤ) - Int.log 2 q)) *
        2 ^ (Int.log 2 q - 52) := by
    rw [sub_mul, mul_assoc, hcancel, mul_one]
  rw [hrew, abs_mul, abs_of_pos hs2]
  have hmul : |(roundHalfEven (q * 2 ^ ((52:ℤ) - Int.log 2 q)) : ℚ) -
        q * 2 ^ ((52:ℤ) - Int.log 2 q)| * 2 ^ (Int.log 2 q - 52) ≤
      (1/2) * 2 ^ (Int.log 2 q - 52) := mul_le_mul_of_nonneg_right hkey hs2.le
  have hpow : (1/2 : ℚ) * (2:ℚ) ^ (Int.log 2 q - 52) = 2 ^ (Int.log 2 q - 53) := by
    rw [show Int.log 2 q - 53 = (-1) + (Int.log 2 q - 52) from by ring,
      zpow_add₀ (by norm_num : (2:ℚ) ≠ 0)]
    norm_num
  have hfin : (2:ℚ) ^ (Int.log 2 q - 53) ≤ q / 9007199254740992 := by
    rw [show Int.log 2 q - 53 = Int.log 2 q + (-53) from by ring,
      zpow_add₀ (by norm_num : (2:ℚ) ≠ 0),
      show (2:ℚ) ^ (-53 : ℤ) = 1 / 9007199254740992 from by norm_num,
      div_eq_mul_one_div q]
    exact mul_le_mul_of_nonneg_right hle (by norm_num)
  linarith

theorem fl64_le_bound (q : ℚ) (hq : 0 ≤ q) : fl64 q ≤ q + q / 9007199254740992 := by
  rcases eq_or_lt_of_le hq with h | h
  · rw [← h, fl64_zero]
    norm_num
  · have h1 := fl64_err q h
    rw [abs_le] at h1
    linarith [h1.2]

theorem fl64_ge_bound (q : ℚ) (hq : 0 ≤ q) : q - q / 9007199254740992 ≤ fl64 q := by
  rcases eq_or_lt_of_le hq with h | h
  · rw [← h, fl64_zero]
    norm_num
  · have h1 := fl64_err q h
    rw [abs_le] at h1
    linarith [h1.1]

theorem fl64_nonneg (q : ℚ) (hq : 0 ≤ q) : 0 ≤ fl64 q := by
  rcases eq_or_lt_of_le hq with h | h
  · rw [← h, fl64_zero]
  · have h1 := fl64_ge_bound q hq
    have h2 : q / 9007199254740992 ≤ q := by
      apply div_le_self h.le
      norm_num
    linarith

/-- Evaluation scheme for `fl64` at a concrete positive value: supply
the binade and the rounded significand. -/
theorem fl64_eq (q : ℚ) (e n : ℤ) (hq : 0 < q) (h1 : (2:ℚ)^e ≤ q) (h2 : q < (2:ℚ)^(e+1))
    (hn : roundHalfEven (q * 2 ^ ((52:ℤ) - e)) = n) : fl64 q = (n:ℚ) * 2 ^ (e - 52) := by
  rw [fl64, if_neg (by linarith), if_neg hq.ne']
  unfold fl64Pos
  rw [intLog2_eq hq h1 h2, hn]

theorem fl64_one : fl64 (1:ℚ) = 1 := by
  have hn : roundHalfEven ((1:ℚ) * 2 ^ ((52:ℤ) - 0)) = 4503599627370496 := by
    rw [show (1:ℚ) * 2 ^ ((52:ℤ) - 0) = ((4503599627370496 : ℤ) : ℚ) from by norm_num]
    exact roundHalfEven_intCast _
  rw [fl64_eq 1 0 4503599627370496 one_pos (by norm_num) (by norm_num) hn]
  norm_num

theorem fl64_hundred : fl64 (100:ℚ) = 100 := by
  have hn : roundHalfEven ((100:ℚ) * 2 ^ ((52:ℤ) - 6)) = 7036874417766400 := by
    rw [show (100:ℚ) * 2 ^ ((52:ℤ) - 6) = ((7036874417766400 : ℤ) : ℚ) from by norm_num]
    exact roundHalfEven_intCast _
  rw [fl64_eq 100 6 7036874417766400 (by norm_num) (by norm_num) (by norm_num) hn]
  norm_num

/-- The double nearest `23/40`: strictly below the exact value. -/
theorem fl64_div40 : fl64 (23/40 : ℚ) = 2589569785738035/4503599627370496 := by
  have hn : roundHalfEven ((23/40 : ℚ) * 2 ^ ((52:ℤ) - (-1))) = 5179139571476070 := by
    apply roundHalfEven_eq_of_lt <;> norm_num
  rw [fl64_eq (23/40) (-1) 5179139571476070 (by norm_num) (by norm_num) (by norm_num) hn]
  norm_num

/-- The double nearest `199/200`: strictly below the exact value. -/
theorem fl64_div200 : fl64 (199/200 : ℚ) = 8962163258467287/9007199254740992 := by
  have hn : roundHalfEven ((199/200 : ℚ) * 2 ^ ((52:ℤ) - (-1))) = 8962163258467287 := by
    apply roundHalfEven_eq_of_lt <;> norm_num
  rw [fl64_eq (199/200) (-1) 8962163258467287 (by norm_num) (by norm_num) (by norm_num) hn]
  norm_num

/-- Multiplying the rounded `23/40` by 100 and rounding again lands at
`57.49999999999999289…`, strictly below `57.5`. -/
theorem fl64_prod40 :
    fl64 ((2589569785738035/4503599627370496 : ℚ) * 100) = 8092405580431359/140737488355328 := by
  have hn : roundHalfEven ((2589569785738035/4503599627370496 : ℚ) * 100 * 2 ^ ((52:ℤ) - 5)) =
      8092405580431359 := by
    apply roundHalfEven_eq_of_lt <;> norm_num
  rw [fl64_eq _ 5 8092405580431359 (by norm_num) (by norm_num) (by norm_num) hn]
  norm_num

/-- Multiplying the rounded `199/200` by 100 and rounding again lands at
exactly `99.5`. -/
theorem fl64_prod200 :
    fl64 ((8962163258467287/9007199254740992 : ℚ) * 100) = 199/2 := by
  have hn : roundHalfEven ((8962163258467287/9007199254740992 : ℚ) * 100 * 2 ^ ((52:ℤ) - 6)) =
      7001690045677568 := by
    rw [show (7001690045677568:ℤ) = 7001690045677567 + 1 from by norm_num]
    apply roundHalfEven_eq_of_gt <;> norm_num
  rw [fl64_eq _ 6 7001690045677568 (by norm_num) (by norm_num) (by norm_num) hn]
  norm_num

theorem jsPct_le_100 (total missing : ℕ) (hm : missing ≤ total) (ht : 0 < total) :
    jsPct total missing ≤ 100 := by
  unfold jsPct jsRound
  have htQ : (0:ℚ) < (total:ℚ) := by exact_mod_cast ht
  have hmQ : (missing:ℚ) ≤ (total:ℚ) := by exact_mod_cast hm
  have hq0 : (0:ℚ) ≤ ((total:ℚ) - missing) / total :=
    div_nonneg (by linarith) htQ.le
  have hq1 : ((total:ℚ) - missing) / total ≤ 1 := by
    rw [div_le_one htQ]
    have : (0:ℚ) ≤ (missing:ℚ) := Nat.cast_nonneg missing
    linarith
  have hd0 : 0 ≤ fl64 (((total:ℚ) - missing) / total) := fl64_nonneg _ hq0
  have hd1 : fl64 (((total:ℚ) - missing) / total) ≤ 1 + 1 / 9007199254740992 := by
    have h1 := fl64_le_bound _ hq0
    have h2 : ((total:ℚ) - missing) / total / 9007199254740992 ≤ 1 / 9007199254740992 :=
      (div_le_div_iff_of_pos_right (by norm_num)).mpr hq1
    linarith
  have hv0 : 0 ≤ fl64 (((total:ℚ) - missing) / total) * 100 := by positivity
  have hx1 := fl64_le_bound _ hv0
  have hx2 : fl64 (((total:ℚ) - missing) / total) * 100 / 9007199254740992 ≤
      (1 + 1 / 9007199254740992) * 100 / 9007199254740992 :=
    (div_le_div_iff_of_pos_right (by norm_num)).mpr (by linarith)
  have hx0 : 0 ≤ fl64 (fl64 (((total:ℚ) - missing) / total) * 100) := fl64_nonneg _ hv0
  have hlt : fl64 (fl64 (((total:ℚ) - missing) / total) * 100) + 1/2 < ((101:ℕ):ℚ) := by
    push_cast
    linarith
  have := (Nat.floor_lt (by linarith : (0:ℚ) ≤
    fl64 (fl64 (((total:ℚ) - missing) / total) * 100) + 1/2)).mpr hlt
  omega

theorem jsPct_missing_zero (total : ℕ) (ht : 0 < total) : jsPct total 0 = 100 := by
  unfold jsPct jsRound
  have h1 : ((total:ℚ) - ((0:ℕ):ℚ)) / (total:ℚ) = 1 := by
    rw [Nat.cast_zero, sub_zero]
    exact div_self (by exact_mod_cast ht.ne')
  rw [h1, fl64_one, one_mul, fl64_hundred]
  rw [Nat.floor_eq_iff (by norm_num)]
  norm_num

/-- With 200 ingredients and one missing, the program computes 100%:
the double product is exactly `99.5` and `Math.round` rounds half up. -/
theorem jsPct_200_1 : jsPct 200 1 = 100 := by
  unfold jsPct jsRound
  rw [show (((200:ℕ):ℚ) - ((1:ℕ):ℚ)) / ((200:ℕ):ℚ) = 199/200 from by norm_num]
  rw [fl64_div200, fl64_prod200]
  rw [Nat.floor_eq_iff (by norm_num)]
  norm_num

/-- With 40 ingredients and 17 missing, the exact ratio is `57.5%` but
the double product is strictly below `57.5`, so the program computes
57, not the exact round-half-up 58. -/
theorem jsPct_40_17 : jsPct 40 17 = 57 := by
  unfold jsPct jsRound
  rw [show (((40:ℕ):ℚ) - ((17:ℕ):ℚ)) / ((40:ℕ):ℚ) = 23/40 from by norm_num]
  rw [fl64_div40, fl64_prod40]
  rw [Nat.floor_eq_iff (by norm_num)]
  norm_num

/-! ### C3: the rounded percentage -/

/-- C3 (amended): `percentageAvailable` is an integer with
`0 ≤ percentageAvailable ≤ 100`; it equals 0 when
`totalIngredients == 0`; and `missingCount == 0` still implies
`percentageAvailable == 100`. The claim's other clauses are false of the
program, which computes `Math.round` of the IEEE-754 binary64 evaluation
of `((totalIngredients - missingCount) / totalIngredients) * 100`: the
result can differ by one from exact round-half-up of the ratio, and can
be 100 with a missing ingredient. -/
theorem percentage_spec (inventory : List InventoryItem) (recipe : Recipe) :
    (analyzeOne inventory recipe).percentageAvailable ≤ 100 ∧
      ((analyzeOne inventory recipe).totalIngredients = 0 →
        (analyzeOne inventory recipe).percentageAvailable = 0) ∧
      (0 < (analyzeOne inventory recipe).totalIngredients →
        (analyzeOne inventory recipe).missingCount = 0 →
        (analyzeOne inventory recipe).percentageAvailable = 100) := by
  have hm := missingCount_le_total inventory recipe
  rw [analyzeOne_totalIngredients] at hm
  rw [analyzeOne_percentageAvailable, analyzeOne_totalIngredients]
  by_cases ht : 0 < recipe.ingredients.length
  · rw [if_pos ht]
    refine ⟨jsPct_le_100 _ _ hm ht, fun h => absurd h (by omega), fun _ h0 => ?_⟩
    rw [h0]
    exact jsPct_missing_zero _ ht
  · rw [if_neg ht]
    exact ⟨by omega, fun _ => rfl, fun h => absurd h ht⟩

/-- Ingredient named `"a"` (code 97). -/
def ingA : Ingredient := { name := Option.some [97], measure := [] }

/-- Ingredient named `"b"` (code 98). -/
def ingB : Ingredient := { name := Option.some [98], measure := [] }

/-- Inventory item named `"a"`. -/
def itemA : InventoryItem :=
  { _id := [], name := Option.some [97], volumeRemaining := 0, volumeTotal := 0, unit := [] }

/-- A recipe with 200 ingredients: 199 stocked (`"a"`) and one missing
(`"b"`). -/
def recipe200 : Recipe :=
  { _id := [], name := [], category := [], thumbnailUrl := [],
    ingredients := List.replicate 199 ingA ++ [ingB] }

/-- A recipe with 40 ingredients: 23 stocked (`"a"`) and 17 missing
(`"b"`). -/
def recipe40 : Recipe :=
  { _id := [], name := [], category := [], thumbnailUrl := [],
    ingredients := List.replicate 23 ingA ++ List.replicate 17 ingB }

set_option maxRecDepth 100000 in
/-- C3 (counterexample): both refuted clauses of the claim, at concrete
inputs. With 200 ingredients and 1 missing the report shows 100% with a
missing ingredient, so `percentageAvailable == 100` does not imply
`missingCount == 0`. With 40 ingredients and 17 missing the exact ratio
is `57.5%`, whose round-half-up is 58, but the program's double
arithmetic yields `57.49999999999999…` and the report shows 57 — so
`percentageAvailable` is not round-half-up of the exact ratio. -/
theorem percentage_deviates_from_exact_rounding :
    ((analyzeOne [itemA] recipe200).missingCount = 1 ∧
      (analyzeOne [itemA] recipe200).percentageAvailable = 100) ∧
      ((analyzeOne [itemA] recipe40).missingCount = 17 ∧
        (analyzeOne [itemA] recipe40).totalIngredients = 40 ∧
        (analyzeOne [itemA] recipe40).percentageAvailable = 57 ∧
        ⌊(((analyzeOne [itemA] recipe40).totalIngredients : ℚ) -
              ((analyzeOne [itemA] recipe40).missingCount : ℚ)) /
            ((analyzeOne [itemA] recipe40).totalIngredients : ℚ) * 100 + 1/2⌋₊ = 58) := by
  have hm200 : (analyzeOne [itemA] recipe200).missingCount = 1 := by decide
  have hl200 : recipe200.ingredients.length = 200 := by decide
  have hm40 : (analyzeOne [itemA] recipe40).missingCount = 17 := by decide
  have hl40 : recipe40.ingredients.length = 40 := by decide
  have ht40 : (analyzeOne [itemA] recipe40).totalIngredients = 40 := by decide
  refine ⟨⟨hm200, ?_⟩, hm40, ht40, ?_, ?_⟩
  · rw [analyzeOne_percentageAvailable, hm200, hl200, if_pos (by norm_num)]
    exact jsPct_200_1
  · rw [analyzeOne_percentageAvailable, hm40, hl40, if_pos (by norm_num)]
    exact jsPct_40_17
  · rw [ht40, hm40]
    rw [Nat.floor_eq_iff (by positivity)]
    norm_num

/-- A one-ingredient recipe whose single ingredient is stocked. -/
def recipeA1 : Recipe :=
  { _id := [], name := [], category := [], thumbnailUrl := [], ingredients := [ingA] }

/-- Witness: `percentage_spec` applied concretely — a fully stocked
one-ingredient recipe reports 100%. -/
theorem percentage_spec_witness :
    0 < (analyzeOne [itemA] recipeA1).totalIngredients ∧
      (analyzeOne [itemA] recipeA1).missingCount = 0 ∧
      (analyzeOne [itemA] recipeA1).percentageAvailable = 100 :=
  ⟨by decide, by decide, (percentage_spec [itemA] recipeA1).2.2 (by decide) (by decide)⟩


/-! ### C6 and C9: the ranking sort -/

theorem rankBefore_total (a b : AvailabilityReport) : rankBefore a b || rankBefore b a := by
  simp only [rankBefore, Bool.or_eq_true, Bool.and_eq_true, decide_eq_true_iff]
  omega

theorem rankBefore_trans (a b c : AvailabilityReport) :
    rankBefore a b → rankBefore b c → rankBefore a c := by
  intro h1 h2
  simp only [rankBefore, Bool.or_eq_true, Bool.and_eq_true, decide_eq_true_iff] at h1 h2 ⊢
  omega

/-- Filtering down to the reports with one given sort key commutes with
`rank`: equal-key reports keep their relative input order. -/
theorem rank_filter_key (reports : List AvailabilityReport) (av : Availability) (p : Nat) :
    (rank reports).filter (fun r => decide (r.availability = av ∧ r.percentageAvailable = p)) =
      reports.filter (fun r => decide (r.availability = av ∧ r.percentageAvailable = p)) := by
  unfold rank
  have hpw : (reports.filter
      (fun r => decide (r.availability = av ∧ r.percentageAvailable = p))).Pairwise
        (fun a b => rankBefore a b = true) := by
    apply List.pairwise_of_forall_mem_list
    intro a ha b hb
    have ha2 := (List.mem_filter.mp ha).2
    have hb2 := (List.mem_filter.mp hb).2
    simp only [decide_eq_true_iff] at ha2 hb2
    simp only [rankBefore, Bool.or_eq_true, Bool.and_eq_true, decide_eq_true_iff]
    right
    rw [ha2.1, hb2.1, ha2.2, hb2.2]
    exact ⟨rfl, le_refl _⟩
  have hsub : List.Sublist
      (reports.filter (fun r => decide (r.availability = av ∧ r.percentageAvailable = p)))
      (reports.mergeSort rankBefore) :=
    List.sublist_mergeSort rankBefore_trans rankBefore_total hpw (List.filter_sublist reports)
  have hperm : ((reports.mergeSort rankBefore).filter
      (fun r => decide (r.availability = av ∧ r.percentageAvailable = p))).Perm
        (reports.filter (fun r => decide (r.availability = av ∧ r.percentageAvailable = p))) :=
    (List.mergeSort_perm reports rankBefore).filter _
  have hfil : (reports.filter
        (fun r => decide (r.availability = av ∧ r.percentageAvailable = p))).filter
          (fun r => decide (r.availability = av ∧ r.percentageAvailable = p)) =
      reports.filter (fun r => decide (r.availability = av ∧ r.percentageAvailable = p)) := by
    apply List.filter_eq_self.mpr
    intro a ha
    exact (List.mem_filter.mp ha).2
  have hsub2 : List.Sublist
      (reports.filter (fun r => decide (r.availability = av ∧ r.percentageAvailable = p)))
      ((reports.mergeSort rankBefore).filter
        (fun r => decide (r.availability = av ∧ r.percentageAvailable = p))) := by
    have := hsub.filter (fun r => decide (r.availability = av ∧ r.percentageAvailable = p))
    rwa [hfil] at this
  exact (hsub2.eq_of_length hperm.symm.length_eq).symm

/-- C6: `rank` sorts descending by availability rank (`full=3, partial=2,
none=1`) and, within equal rank, descending by `percentageAvailable`;
reports with equal availability and equal percentage retain their
relative input order (stability, stated as: filtering to any single sort
key commutes with the sort). -/
theorem rank_sorted_and_stable (reports : List AvailabilityReport) :
    (rank reports).Pairwise (fun a b =>
        availabilityOrder b.availability < availabilityOrder a.availability ∨
          (availabilityOrder a.availability = availabilityOrder b.availability ∧
            b.percentageAvailable ≤ a.percentageAvailable)) ∧
      (∀ (av : Availability) (p : Nat),
        (rank reports).filter
            (fun r => decide (r.availability = av ∧ r.percentageAvailable = p)) =
          reports.filter
            (fun r => decide (r.availability = av ∧ r.percentageAvailable = p))) := by
  constructor
  · have hs : (rank reports).Pairwise (fun a b => rankBefore a b = true) := by
      unfold rank
      exact List.sorted_mergeSort rankBefore_trans rankBefore_total reports
    refine hs.imp ?_
    intro a b hab
    simpa only [rankBefore, Bool.or_eq_true, Bool.and_eq_true, decide_eq_true_iff] using hab
  · exact rank_filter_key reports

/-- C9: `rank` returns a permutation of its input sequence; the input
itself is left unchanged (the source sorts a copy `[...analysis]`, and
the model is purely functional). -/
theorem rank_perm_input (reports : List AvailabilityReport) : (rank reports).Perm reports := by
  unfold rank
  exact List.mergeSort_perm reports rankBefore

/-! ### C10: reports depend only on the set of normalized inventory names -/

/-- C10: the per-recipe report depends only on the set of normalized
(trimmed, lower-cased, possibly absent) inventory item names: any two
inventories with the same set of normalized names — e.g. one obtained
from the other by permuting, duplicating items, or changing
`volumeRemaining` / `volumeTotal` / `unit` / `_id` — yield identical
reports. -/
theorem report_depends_only_on_normalized_names (recipe : Recipe)
    (inv1 inv2 : List InventoryItem)
    (h1 : ∀ n ∈ inv1.map (fun item => normOpt item.name),
      n ∈ inv2.map (fun item => normOpt item.name))
    (h2 : ∀ n ∈ inv2.map (fun item => normOpt item.name),
      n ∈ inv1.map (fun item => normOpt item.name)) :
    analyzeOne inv1 recipe = analyzeOne inv2 recipe := by
  have hiff : ∀ (inv : List InventoryItem) (ing : Ingredient),
      (ingredientAvailable inv ing = true ↔
        normOpt ing.name ∈ inv.map (fun item => normOpt item.name)) := by
    intro inv ing
    simp only [ingredientAvailable, List.find?_isSome, namesMatch, decide_eq_true_iff,
      List.mem_map]
  have key : ∀ ing : Ingredient, ingredientAvailable inv1 ing = ingredientAvailable inv2 ing := by
    intro ing
    by_cases hA : ingredientAvailable inv1 ing = true
    · have hc : ingredientAvailable inv2 ing = true :=
        (hiff inv2 ing).mpr (h1 _ ((hiff inv1 ing).mp hA))
      rw [hA, hc]
    · have hB : ¬ingredientAvailable inv2 ing = true := fun hc =>
        hA ((hiff inv1 ing).mpr (h2 _ ((hiff inv2 ing).mp hc)))
      rw [Bool.not_eq_true] at hA hB
      rw [hA, hB]
  have hfun : ingredientAvailable inv1 = ingredientAvailable inv2 := funext key
  unfold analyzeOne
  rw [hfun]

/-- Inventory item `"Vodka"` (as in the mock data). -/
def vodkaItem : InventoryItem :=
  { _id := [49], name := Option.some [86, 111, 100, 107, 97],
    volumeRemaining := 750, volumeTotal := 750, unit := [109, 108] }

/-- The same stocked name written `" vodka "`, with different id, volumes
and unit. -/
def vodkaItemVariant : InventoryItem :=
  { _id := [50], name := Option.some [32, 118, 111, 100, 107, 97, 32],
    volumeRemaining := 1, volumeTotal := 2, unit := [111, 122] }

/-- A recipe requiring `"vodka"` and the unstocked `"b"`. -/
def vodkaRecipe : Recipe :=
  { _id := [], name := [], category := [], thumbnailUrl := [],
    ingredients := [{ name := Option.some [118, 111, 100, 107, 97], measure := [] }, ingB] }

/-- Witness: two concrete inventories with the same set of normalized
names — different order, multiplicity, spelling (case/whitespace), ids,
volumes and units — produce the same report. -/
theorem report_depends_only_on_normalized_names_witness :
    (∀ n ∈ [vodkaItem].map (fun item => normOpt item.name),
        n ∈ [vodkaItemVariant, vodkaItem].map (fun item => normOpt item.name)) ∧
      (∀ n ∈ [vodkaItemVariant, vodkaItem].map (fun item => normOpt item.name),
        n ∈ [vodkaItem].map (fun item => normOpt item.name)) ∧
      analyzeOne [vodkaItem] vodkaRecipe = analyzeOne [vodkaItemVariant, vodkaItem] vodkaRecipe :=
  ⟨by decide, by decide,
    report_depends_only_on_normalized_names vodkaRecipe [vodkaItem] [vodkaItemVariant, vodkaItem]
      (by decide) (by decide)⟩

end AnalyzeRecipes
